import Mathlib

/-!
Verification of the `nasa/oceandata-notebooks` repository against its
natural-language specification.  The Python fragments under scrutiny are
shallowly embedded below: numeric arrays become `List ℚ` (exact arithmetic),
bit-flag words become `ℕ` with the bitwise operations of the source,
file-system state becomes an association list from paths to contents, and
third-party library calls that the repository merely invokes (numba's JIT,
scipy's `griddata`, tomlkit) are kept as parameters or semantics-preserving
wrappers, as documented at each definition.
-/

namespace OceanData

/- ## `mean_and_std` from src/notebooks/oci/oci_gridding.py (lines 197-217) -/

namespace OciGridding

/-- Embedding of `mean_and_std` from `oci_gridding.py`, up to the final square
root: the single for-loop accumulates the sum `s` and the sum of squares `ss`
over the array, then computes `mean = s / n` and
`variance = (ss / n - mean ** 2) * n / (n - 1)` with `n = x.size`. -/
def mean_and_var (x : List ℚ) : ℚ × ℚ :=
  let p := x.foldl (fun acc i => (acc.1 + i, acc.2 + i ^ 2)) (0, 0)
  let n : ℚ := x.length
  let mean := p.1 / n
  let variance := (p.2 / n - mean ^ 2) * n / (n - 1)
  (mean, variance)

/-- Embedding of the full `mean_and_std` from `oci_gridding.py`: the function
returns the pair `(mean, variance ** (1/2))`. -/
noncomputable def mean_and_std (x : List ℚ) : ℚ × ℝ :=
  ((mean_and_var x).1, Real.sqrt ((mean_and_var x).2 : ℝ))

end OciGridding

namespace DaskGridding

/-- Embedding of `mean_and_std` from `dask_gridding.py` (lines 183-204), up to
the final square root; the file carries a character-for-character duplicate of
the loop in `oci_gridding.py`. -/
def mean_and_var (x : List ℚ) : ℚ × ℚ :=
  let p := x.foldl (fun acc i => (acc.1 + i, acc.2 + i ^ 2)) (0, 0)
  let n : ℚ := x.length
  let mean := p.1 / n
  let variance := (p.2 / n - mean ^ 2) * n / (n - 1)
  (mean, variance)

/-- Embedding of the full `mean_and_std` from `dask_gridding.py`. -/
noncomputable def mean_and_std (x : List ℚ) : ℚ × ℝ :=
  ((mean_and_var x).1, Real.sqrt ((mean_and_var x).2 : ℝ))

end DaskGridding

/-- Modelled from the spec: `numba.njit` is a third-party JIT compiler, not
repository code; the spec describes it as compiling a Python function while
preserving its input-output behaviour, so in the exact-arithmetic embedding it
is the identity on functions. -/
def numba_njit {α β : Type _} (f : α → β) : α → β := f

/-- Embedding of `compiled_mean_and_std = numba.njit(mean_and_std)` from
`oci_gridding.py` line 238. -/
noncomputable def compiled_mean_and_std : List ℚ → ℚ × ℝ :=
  numba_njit OciGridding.mean_and_std

/- ## Bitmask flag decoding from book/src/oci/Land_tutorial.py -/

/-- Keep-predicate of the cloud mask `ds.where(~((ds.l2_flags & (1 << 9)) != 0))`
from `Land_tutorial.py` line 120, applied to one pixel's `l2_flags` word. -/
def cloudmask_keep (v : ℕ) : Bool := !((v &&& (1 <<< 9)) != 0)

/-- Keep-predicate of the combined cloud-and-land mask
`ds.where(~((ds.l2_flags & (1 << 9)) != 0) & ((ds.l2_flags & (1 << 1)) != 0))`
from `Land_tutorial.py` line 147. -/
def landcloud_keep (v : ℕ) : Bool :=
  (!((v &&& (1 <<< 9)) != 0)) && ((v &&& (1 <<< 1)) != 0)

/-- Embedding of xarray's `ds.where(mask)` on a dataset of pixels, each carrying
its `l2_flags` word and a data value: a kept pixel retains its value, a masked
pixel becomes NaN (modelled as `none`). -/
def ds_where (keep : ℕ → Bool) (ds : List (ℕ × ℚ)) : List (ℕ × Option ℚ) :=
  ds.map fun cell => (cell.1, if keep cell.1 then some cell.2 else none)

/- ## The `simple_mlp` models of src/notebooks/hackweek/ml_cloud_mask.py -/

/-- Torch layers appearing in the `nn.Sequential` models of `ml_cloud_mask.py`:
fully-connected `nn.Linear(in_features, out_features)` layers and `nn.ReLU()`
activations. -/
inductive TorchLayer : Type
  | linear (in_features out_features : ℕ)
  | relu

/-- Embedding of the first `simple_mlp` of `ml_cloud_mask.py` (lines 291-296):
`nn.Sequential(nn.Linear(12, 16), nn.ReLU(), nn.Linear(16, 16), nn.ReLU(),
nn.Linear(16, 1))`. -/
def simple_mlp_initial : List TorchLayer :=
  [.linear 12 16, .relu, .linear 16 16, .relu, .linear 16 1]

/-- Embedding of the re-defined, bigger `simple_mlp` of `ml_cloud_mask.py`
(lines 386-397), the one the minimal training loop optimizes:
`nn.Sequential(nn.Linear(12, 32), nn.ReLU(), nn.Linear(32, 32), nn.ReLU(),
nn.Linear(32, 32), nn.ReLU(), nn.Linear(32, 32), nn.ReLU(),
nn.Linear(32, 32), nn.ReLU(), nn.Linear(32, 1))`. -/
def simple_mlp_training : List TorchLayer :=
  [.linear 12 32, .relu, .linear 32 32, .relu, .linear 32 32, .relu,
   .linear 32 32, .relu, .linear 32 32, .relu, .linear 32 1]

/-- Number of linear (fully-connected) layers of a sequential model. -/
def linear_layer_count (m : List TorchLayer) : ℕ :=
  (m.filter fun l => match l with | .linear _ _ => true | .relu => false).length

/- ## `write_par` from src/oci/oci_ocssw_processing.py (lines 59-70) -/

/-- Character that forces the Python `csv.writer` (dialect `excel`, delimiter
`'='`, `QUOTE_MINIMAL`) to quote a field: the delimiter `'='`, the quote
character `'"'`, or a character of the line terminator `"\r\n"`. -/
def csv_needs_quote (s : String) : Bool :=
  s.toList.any fun c => c == '=' || c == '"' || c == '\r' || c == '\n'

/-- Field as emitted by the `csv.writer`: quoted with doubled inner quotes when
the field contains a special character, verbatim otherwise. -/
def csv_quote (s : String) : String :=
  if csv_needs_quote s then
    "\"" ++
      String.join (s.toList.map fun c =>
        if c == '"' then "\"\"" else String.singleton c) ++ "\""
  else s

/-- Embedding of the content written by `write_par(path, par)`: the
`csv.writer` with delimiter `'='` emits, for each `(key, value)` item of `par`
in iteration order, the row `key=value` followed by the default line
terminator `"\r\n"`. -/
def write_par (par : List (String × String)) : String :=
  String.join (par.map fun kv => csv_quote kv.1 ++ "=" ++ csv_quote kv.2 ++ "\r\n")

/-- File-system state: an association list from paths to file contents. -/
def fs_lookup (fs : List (String × String)) (p : String) : Option String :=
  (fs.find? fun kv => kv.1 == p).map fun kv => kv.2

/-- Writing a file replaces any entry at the path and touches nothing else. -/
def fs_write (fs : List (String × String)) (p c : String) :
    List (String × String) :=
  (p, c) :: fs.filter fun kv => !(kv.1 == p)

/-- Embedding of the file-system effect of `write_par(path, par)`: the function
opens `path` with mode `"w"` and writes the rows. -/
def write_par_file (fs : List (String × String)) (path : String)
    (par : List (String × String)) : List (String × String) :=
  fs_write fs path (write_par par)

/- ## `generate_split` from src/notebooks/hackweek/ml_cloud_mask.py -/

/-- Python's built-in `round`: round half to even (banker's rounding), applied
to the exact rational value. -/
def py_round (q : ℚ) : ℤ :=
  if q - ⌊q⌋ < 1 / 2 then ⌊q⌋
  else if 1 / 2 < q - ⌊q⌋ then ⌊q⌋ + 1
  else if 2 ∣ ⌊q⌋ then ⌊q⌋ else ⌊q⌋ + 1

/-- Python's slice `l[-k:]`: the last `k` elements for `1 ≤ k`, but the whole
list when `k = 0`, because `-0` is `0`. -/
def py_slice_last (l : List ℕ) (k : ℕ) : List ℕ :=
  if k = 0 then l else l.drop (l.length - k)

/-- Rounded size of the validation set of `generate_split`:
`round(0.15 * num_imgs)` (also the size of the test set). -/
def num_val_of (n : ℕ) : ℤ := py_round ((0.15 : ℚ) * n)

/-- Embedding of the split computation of `generate_split` (lines 142-174):
`num_train`, `num_val` and `num_test` are the rounded 70/15/15 shares with the
rounding error folded back into `num_train`; the shuffled index array `perm`
is sliced as `perm[:num_train]`, `perm[num_train:num_train+num_val]` and
`perm[-num_test:]`, and each slice is sorted. -/
def generate_split_lists (n : ℕ) (perm : List ℕ) :
    List ℕ × List ℕ × List ℕ :=
  let num_train0 : ℤ := py_round ((0.7 : ℚ) * n)
  let num_val : ℤ := num_val_of n
  let num_test : ℤ := num_val_of n
  let num_train : ℤ := num_train0 + ((n : ℤ) - (num_train0 + num_val + num_test))
  let train := (perm.take num_train.toNat).mergeSort fun a b => a ≤ b
  let val := ((perm.drop num_train.toNat).take num_val.toNat).mergeSort fun a b => a ≤ b
  let test := (py_slice_last perm num_test.toNat).mergeSort fun a b => a ≤ b
  (train, val, test)

/-- Embedding of the file-system behaviour of
`generate_split(name, replace)`: the image count comes from globbing
`*.png` files under the output directory, the split is computed, and only
then is the existence of `'{name}.json'` checked; on an existing file with
`replace=False` a `ValueError` is raised (second component `true`) and the
file system is returned as it was, otherwise the split is dumped to the
file. -/
def generate_split_run (fs : List (String × String)) (name : String)
    (replace : Bool) (perm : List ℕ) : List (String × String) × Bool :=
  let n := (fs.filter fun kv =>
    kv.1.startsWith "output/" && kv.1.endsWith ".png").length
  let split := generate_split_lists n perm
  let split_path := name ++ ".json"
  if !replace && (fs_lookup fs split_path).isSome then (fs, true)
  else (fs_write fs split_path (toString split), false)

/- ## The swath-to-grid resampling loop of dask_gridding.py (lines 440-454) -/

/-- Embedding of the `for key, value in dataset.groupby("time")` resampling
loop: the dataset is a list of time slices in time order; the per-slice xarray
transformations (`squeeze`, `stack`, selection of the latitude/longitude
points and of the `chlor_a` values) and `scipy.interpolate.griddata` itself
are uninterpreted functions; each iteration appends the regridded slice, with
its time key, to the accumulating `groups` list. -/
def grid_time_loop {Time Slice Swath Chl Grid G : Type _}
    (squeeze stack : Slice → Slice)
    (latlon : Slice → Swath) (chlor_a : Slice → Chl)
    (griddata : Swath → Chl → Grid → G) (grid_latlon : Grid)
    (dataset : List (Time × Slice)) : List (Time × G) :=
  dataset.foldl
    (fun groups kv =>
      let value := squeeze kv.2
      let swath_pixel := stack value
      let swath_latlon := latlon swath_pixel
      let gridded := griddata swath_latlon (chlor_a swath_pixel) grid_latlon
      groups ++ [(kv.1, gridded)])
    []

/- ## `main`/`parse` of book/update-setup.py -/

/-- Text line of a script file, embedded as its character list. -/
abbrev Line := List Char

/-- Closing fence `# ///` of the inline script metadata block. -/
def fence : Line := "# ///".toList

/-- Line matched by the content pattern `^#(| .*)$` of `parse`'s regex: a lone
`#` or `# ` followed by anything. -/
def is_comment_line (l : Line) : Bool :=
  l == ['#'] || l.take 2 == ['#', ' ']

/-- Line matched by the opening pattern `^# /// (?P<type>[a-zA-Z0-9-]+)$`. -/
def header_ok (l : Line) : Bool :=
  l.take 6 == "# /// ".toList && !(l.drop 6).isEmpty &&
    (l.drop 6).all fun c => c.isAlphanum || c == '-'

/-- Greedy backtracking of `re.match` on `(^#(| .*)$\s)+^# ///$`: among the
candidate fence positions `1..k`, the largest index holding `# ///` wins. -/
def last_fence_le (tail : List Line) : ℕ → Option ℕ
  | 0 => none
  | j + 1 =>
    if tail.get? (j + 1) == some fence then some (j + 1)
    else last_fence_le tail j

/-- Index of the fence line chosen by `parse`'s regex: the content group
consumes consecutive comment lines, as many as possible, and the fence is the
last `# ///` inside that run. -/
def terminator_idx (tail : List Line) : Option ℕ :=
  last_fence_le tail (tail.takeWhile is_comment_line).length

/-- Interface of the third-party `tomlkit` library as used by update-setup.py:
documents, serialisation to and from text lines, updating the `dependencies`
key, and key lookup. -/
structure TomlLib where
  Doc : Type
  Val : Type
  loads : List Line → Option Doc
  dumps : Doc → List Line
  setDeps : Doc → List Line → Doc
  get : Doc → Line → Option Val
  depsVal : List Line → Val

/-- Embedding of `parse(script)` from update-setup.py: match the header
pattern from the start of the script, strip the first two characters of each
content line, load the result as TOML, and return it with the remainder of
the script after the fence. -/
def parse (T : TomlLib) (script : List Line) : Option (T.Doc × List Line) :=
  match script with
  | [] => none
  | hdr :: tail =>
    if header_ok hdr then
      (terminator_idx tail).bind fun j =>
        (T.loads ((tail.take j).map fun l => l.drop 2)).map fun d =>
          (d, tail.drop (j + 1))
    else none

/-- Requirements line skipped by `main`'s comment filter `^\s*#`. -/
def is_req_comment (l : Line) : Bool :=
  ((l.dropWhile fun c => c.isWhitespace).take 1) == ['#']

/-- Script written by `main`: `"# /// script"`, then each line of the dumped
TOML document prefixed by `"# "` (an empty dump leaves the bare `"# "` line
produced by `"\n# ".join`), then `"# ///"`, then the body verbatim. -/
def new_script (T : TomlLib) (toml2 : T.Doc) (body : List Line) : List Line :=
  ("# /// script".toList ::
    (match T.dumps toml2 with
     | [] => [['#', ' ']]
     | ls => ls.map fun l => '#' :: ' ' :: l)) ++ (fence :: body)

/-- Embedding of `main(reqs, script)` from update-setup.py: filter the comment
lines out of the requirements, parse the script, set the `dependencies` key to
the remaining requirement lines, and rewrite the script around the unchanged
body. -/
def py_main (T : TomlLib) (reqs script : List Line) : Option (List Line) :=
  (parse T script).map fun p =>
    new_script T (T.setDeps p.1 (reqs.filter fun l => !(is_req_comment l))) p.2

/-- Concrete instance of the tomlkit interface used as a witness: a document
is a list of dependency lines, dumped as a `deps:` header followed by one
`- `-prefixed line per dependency. -/
def listTomlLib : TomlLib where
  Doc := List (List Char)
  Val := List (List Char)
  loads := fun ls =>
    match ls with
    | [] => none
    | d :: rest =>
      if d == "deps:".toList && rest.all (fun l => l.take 2 == ['-', ' ']) then
        some (rest.map fun l => l.drop 2)
      else none
  dumps := fun ds => "deps:".toList :: ds.map fun l => '-' :: ' ' :: l
  setDeps := fun _ ps => ps
  get := fun d k => if k == "dependencies".toList then some d else none
  depsVal := fun ps => ps

/- ## Helper lemmas for the mean/variance claims -/

/-- The accumulating for-loop of `mean_and_std` computes the sum and the sum of
squares of the array. -/
theorem foldl_sum_sumsq (x : List ℚ) (a b : ℚ) :
    x.foldl (fun acc i => (acc.1 + i, acc.2 + i ^ 2)) (a, b) =
      (a + x.sum, b + (x.map (fun i => i ^ 2)).sum) := by
  induction x generalizing a b with
  | nil => simp
  | cons hd tl ih => simp [List.foldl_cons, ih, add_assoc]

/-- Sum of squared deviations expands to `ss - 2 m s + n m²`. -/
theorem sum_sq_dev (m : ℚ) (x : List ℚ) :
    (x.map (fun i => (i - m) ^ 2)).sum =
      (x.map (fun i => i ^ 2)).sum - 2 * m * x.sum + (x.length : ℚ) * m ^ 2 := by
  induction x with
  | nil => simp
  | cons hd tl ih =>
    simp only [List.map_cons, List.sum_cons, List.length_cons, ih]
    push_cast
    ring

end OceanData

namespace OceanData

/-- Claim C1: for every array `x` with at least two elements, `mean_and_std x`
returns the mean `(sum x) / n` together with the Bessel-corrected sample
standard deviation: the square of the returned second component is
`(sum of (x_i - m)^2) / (n - 1)`; moreover the algebraic identity
`(ss/n - m^2) * n/(n-1) = sum((x_i - m)^2)/(n-1)` holds, which is what makes
the implementation correct. -/
theorem mean_and_std_correct (x : List ℚ) (h : 2 ≤ x.length) :
    (OciGridding.mean_and_std x).1 = x.sum / (x.length : ℚ) ∧
    (OciGridding.mean_and_std x).2 ^ 2 =
      (((x.map (fun i => (i - x.sum / (x.length : ℚ)) ^ 2)).sum /
        ((x.length : ℚ) - 1) : ℚ) : ℝ) ∧
    ((x.map (fun i => i ^ 2)).sum / (x.length : ℚ) -
        (x.sum / (x.length : ℚ)) ^ 2) * (x.length : ℚ) / ((x.length : ℚ) - 1) =
      (x.map (fun i => (i - x.sum / (x.length : ℚ)) ^ 2)).sum /
        ((x.length : ℚ) - 1) := by
  have hn0 : (x.length : ℚ) ≠ 0 := by
    have : 0 < x.length := lt_of_lt_of_le (by norm_num) h
    exact_mod_cast this.ne'
  set n : ℚ := (x.length : ℚ) with hn
  set m : ℚ := x.sum / n with hm
  have hident :
      ((x.map (fun i => i ^ 2)).sum / n - m ^ 2) * n / (n - 1) =
        (x.map (fun i => (i - m) ^ 2)).sum / (n - 1) := by
    have hdev := sum_sq_dev m x
    rw [hdev, hm]
    field_simp
    ring
  have hvar :
      (OciGridding.mean_and_var x).2 =
        (x.map (fun i => (i - m) ^ 2)).sum / (n - 1) := by
    show ((x.foldl (fun acc i => (acc.1 + i, acc.2 + i ^ 2)) (0, 0)).2 /
        (x.length : ℚ) -
        ((x.foldl (fun acc i => (acc.1 + i, acc.2 + i ^ 2)) (0, 0)).1 /
          (x.length : ℚ)) ^ 2) * (x.length : ℚ) / ((x.length : ℚ) - 1) = _
    rw [foldl_sum_sumsq]
    simp only [zero_add, ← hn, ← hm]
    exact hident
  have hmean : (OciGridding.mean_and_var x).1 = m := by
    show (x.foldl (fun acc i => (acc.1 + i, acc.2 + i ^ 2)) (0, 0)).1 /
        (x.length : ℚ) = m
    rw [foldl_sum_sumsq]; simp [hm, hn]
  have hvar_nonneg : 0 ≤ (OciGridding.mean_and_var x).2 := by
    rw [hvar]
    apply div_nonneg
    · apply List.sum_nonneg
      intro q hq
      obtain ⟨i, _, rfl⟩ := List.mem_map.mp hq
      positivity
    · have h2 : (2 : ℚ) ≤ n := by rw [hn]; exact_mod_cast h
      linarith
  refine ⟨hmean, ?_, hident⟩
  show Real.sqrt ((OciGridding.mean_and_var x).2 : ℝ) ^ 2 = _
  rw [Real.sq_sqrt (by exact_mod_cast hvar_nonneg), hvar]

/-- Witness for C1 at the concrete array `[1, 1]`. -/
theorem mean_and_std_correct_witness :
    2 ≤ ([1, 1] : List ℚ).length ∧
    (OciGridding.mean_and_std [1, 1]).1 = ([1, 1] : List ℚ).sum / 2 := by
  refine ⟨by decide, ?_⟩
  have := mean_and_std_correct [1, 1] (by decide)
  simpa using this.1

/-- Claim C4: the copy of `mean_and_std` in `oci_gridding.py`, its duplicate in
`dask_gridding.py`, and the JIT-compiled `compiled_mean_and_std` all compute
the same function. -/
theorem mean_and_std_copies_agree (x : List ℚ) :
    OciGridding.mean_and_std x = DaskGridding.mean_and_std x ∧
    compiled_mean_and_std x = OciGridding.mean_and_std x := ⟨rfl, rfl⟩

/-- Claim C2: the keep-predicate `~((v & (1 << b)) != 0)` holds exactly when
bit `b` of `v` is clear; hence the cloud mask keeps exactly the pixels with
bit 9 (CLDICE) clear, and the combined mask keeps exactly the pixels with
bit 9 clear and bit 1 (LAND) set, masking all other pixels to NaN. -/
theorem bitmask_flag_decoding (v b : ℕ) (ds : List (ℕ × ℚ)) :
    ((!((v &&& (1 <<< b)) != 0)) = true ↔ v.testBit b = false) ∧
    (cloudmask_keep v = true ↔ v.testBit 9 = false) ∧
    (landcloud_keep v = true ↔ (v.testBit 9 = false ∧ v.testBit 1 = true)) ∧
    ds_where cloudmask_keep ds =
      ds.map (fun cell =>
        (cell.1, if cell.1.testBit 9 = false then some cell.2 else none)) ∧
    ds_where landcloud_keep ds =
      ds.map (fun cell =>
        (cell.1, if cell.1.testBit 9 = false ∧ cell.1.testBit 1 = true
          then some cell.2 else none)) := by
  have key : ∀ (w i : ℕ), ((w &&& (1 <<< i)) != 0) = w.testBit i := by
    intro w i
    rw [Nat.one_shiftLeft, Nat.and_two_pow]
    have h2 : 2 ^ i ≠ 0 := (pow_pos (by norm_num : (0 : ℕ) < 2) i).ne'
    cases hw : w.testBit i
    · simp
    · simp [h2]
  have keep_iff : ∀ w : ℕ, cloudmask_keep w = true ↔ w.testBit 9 = false := by
    intro w
    unfold cloudmask_keep
    rw [key]
    simp
  have land_iff : ∀ w : ℕ,
      landcloud_keep w = true ↔ (w.testBit 9 = false ∧ w.testBit 1 = true) := by
    intro w
    unfold landcloud_keep
    rw [key, key]
    simp
  refine ⟨by rw [key]; simp, keep_iff v, land_iff v, ?_, ?_⟩
  · unfold ds_where
    apply List.map_congr_left
    intro cell _
    by_cases hc : cloudmask_keep cell.1 = true
    · rw [if_pos hc, if_pos ((keep_iff cell.1).mp hc)]
    · rw [if_neg hc, if_neg]
      intro habs
      exact hc ((keep_iff cell.1).mpr habs)
  · unfold ds_where
    apply List.map_congr_left
    intro cell _
    by_cases hc : landcloud_keep cell.1 = true
    · rw [if_pos hc, if_pos ((land_iff cell.1).mp hc)]
    · rw [if_neg hc, if_neg]
      intro habs
      exact hc ((land_iff cell.1).mpr habs)

/-- Claim C3, counterexample: the `simple_mlp` optimized by the minimal
training loop does not consist of exactly two linear layers, and neither does
the initial `simple_mlp`. -/
theorem simple_mlp_not_two_layers :
    linear_layer_count simple_mlp_training ≠ 2 ∧
    linear_layer_count simple_mlp_initial ≠ 2 := by decide

/-- Claim C3, amended: the `simple_mlp` that the minimal training loop
optimizes consists of exactly six linear (fully-connected) layers, and the
initial demonstration `simple_mlp` consists of exactly three. -/
theorem simple_mlp_layer_counts :
    linear_layer_count simple_mlp_training = 6 ∧
    linear_layer_count simple_mlp_initial = 3 := by decide

/-- Finding a path different from `p` is unaffected by filtering out `p`. -/
theorem find?_filter_of_ne (fs : List (String × String)) (p q : String)
    (h : q ≠ p) :
    (fs.filter fun kv => !(kv.1 == p)).find? (fun kv => kv.1 == q) =
      fs.find? (fun kv => kv.1 == q) := by
  induction fs with
  | nil => rfl
  | cons kv tl ih =>
    by_cases hk : kv.1 = p
    · have hq : (kv.1 == q) = false := by
        simp only [beq_eq_false_iff_ne, ne_eq, hk]
        exact fun habs => h habs.symm
      rw [List.filter_cons_of_neg (by simp [hk]),
        List.find?_cons_of_neg _ (by simp [hq]), ih]
    · rw [List.filter_cons_of_pos (by simp [hk])]
      cases hq : (kv.1 == q)
      · rw [List.find?_cons_of_neg _ (by simp [hq]),
          List.find?_cons_of_neg _ (by simp [hq]), ih]
      · rw [List.find?_cons_of_pos _ (by simp [hq]),
          List.find?_cons_of_pos _ (by simp [hq])]

/-- Looking a path up after a write finds the new content at the written path
and the old content everywhere else. -/
theorem fs_lookup_write (fs : List (String × String)) (p c q : String) :
    fs_lookup (fs_write fs p c) q = if q = p then some c else fs_lookup fs q := by
  by_cases h : q = p
  · subst h
    unfold fs_lookup fs_write
    rw [List.find?_cons_of_pos _ (by simp), if_pos rfl]
    rfl
  · unfold fs_lookup fs_write
    rw [List.find?_cons_of_neg _ (by simp; exact fun habs => h habs.symm),
      find?_filter_of_ne _ _ _ h, if_neg h]

/-- Claim C5: for parameters whose keys and values contain none of `'='`,
`'"'`, carriage return, or line feed, `write_par` writes to `path` exactly one
`key=value` row per item of `par` in iteration order (each terminated by the
csv writer's default `"\r\n"`), with no other content, and modifies no file
other than the one at `path`. -/
theorem write_par_exact (par fs : List (String × String)) (path : String)
    (h : ∀ kv ∈ par, csv_needs_quote kv.1 = false ∧ csv_needs_quote kv.2 = false) :
    write_par par =
      String.join (par.map fun kv => kv.1 ++ "=" ++ kv.2 ++ "\r\n") ∧
    fs_lookup (write_par_file fs path par) path = some (write_par par) ∧
    ∀ q, q ≠ path → fs_lookup (write_par_file fs path par) q = fs_lookup fs q := by
  refine ⟨?_, ?_, ?_⟩
  · unfold write_par
    congr 1
    apply List.map_congr_left
    intro kv hkv
    rw [csv_quote, if_neg (by simp [(h kv hkv).1]),
      csv_quote, if_neg (by simp [(h kv hkv).2])]
  · unfold write_par_file
    rw [fs_lookup_write]
    simp
  · intro q hq
    unfold write_par_file
    rw [fs_lookup_write, if_neg hq]

/-- Witness for C5 at a concrete two-parameter file. -/
theorem write_par_exact_witness :
    (∀ kv ∈ ([("ifile", "granule.nc"), ("ofile", "out.nc")] : List (String × String)),
      csv_needs_quote kv.1 = false ∧ csv_needs_quote kv.2 = false) ∧
    write_par [("ifile", "granule.nc"), ("ofile", "out.nc")] =
      String.join
        (([("ifile", "granule.nc"), ("ofile", "out.nc")] : List (String × String)).map
          fun kv => kv.1 ++ "=" ++ kv.2 ++ "\r\n") := by
  refine ⟨by decide, ?_⟩
  exact (write_par_exact [("ifile", "granule.nc"), ("ofile", "out.nc")] []
    "l2gen.par" (by decide)).1

/-- Accumulating a list by appending singletons is a map. -/
theorem foldl_append_singleton {α β : Type _} (f : α → β) (l : List α)
    (acc : List β) :
    l.foldl (fun g x => g ++ [f x]) acc = acc ++ l.map f := by
  induction l generalizing acc with
  | nil => simp
  | cons hd tl ih => simp [List.foldl_cons, ih]

/-- Claim C6: the resampling loop processes each time slice independently: the
result has one entry per time slice, in time order, and the `i`-th entry is
`griddata` applied to the `i`-th slice's latitude/longitude points and
`chlor_a` values together with the shared target `grid_latlon`, so each output
entry depends only on its own slice's data and the shared grid. -/
theorem grid_time_loop_pointwise {Time Slice Swath Chl Grid G : Type _}
    (squeeze stack : Slice → Slice)
    (latlon : Slice → Swath) (chlor_a : Slice → Chl)
    (griddata : Swath → Chl → Grid → G) (grid_latlon : Grid)
    (dataset : List (Time × Slice)) :
    grid_time_loop squeeze stack latlon chlor_a griddata grid_latlon dataset =
      dataset.map (fun kv =>
        (kv.1, griddata (latlon (stack (squeeze kv.2)))
          (chlor_a (stack (squeeze kv.2))) grid_latlon)) ∧
    (grid_time_loop squeeze stack latlon chlor_a griddata grid_latlon
        dataset).length = dataset.length := by
  have hmap :
      grid_time_loop squeeze stack latlon chlor_a griddata grid_latlon dataset =
        dataset.map (fun kv =>
          (kv.1, griddata (latlon (stack (squeeze kv.2)))
            (chlor_a (stack (squeeze kv.2))) grid_latlon)) := by
    unfold grid_time_loop
    rw [foldl_append_singleton]
    simp
  exact ⟨hmap, by rw [hmap, List.length_map]⟩

/-- Claim C9: with `replace=False`, `generate_split` raises `ValueError`
exactly when the file `'{name}.json'` already exists, and when it raises, the
file system is unchanged: the existing split file is not overwritten and no
new file is created. -/
theorem generate_split_raise_iff (fs : List (String × String)) (name : String)
    (perm : List ℕ) :
    ((generate_split_run fs name false perm).2 = true ↔
      (fs_lookup fs (name ++ ".json")).isSome = true) ∧
    ((generate_split_run fs name false perm).2 = true →
      (generate_split_run fs name false perm).1 = fs) := by
  unfold generate_split_run
  by_cases h : (fs_lookup fs (name ++ ".json")).isSome
  · simp [h]
  · simp [h]

/-- Upper bound of Python's round-half-to-even. -/
theorem py_round_le (q : ℚ) : (py_round q : ℚ) ≤ q + 1 / 2 := by
  unfold py_round
  have h1 : ((⌊q⌋ : ℤ) : ℚ) ≤ q := Int.floor_le q
  have h2 : q < ((⌊q⌋ : ℤ) : ℚ) + 1 := Int.lt_floor_add_one q
  split_ifs with ha hb hc <;> push_cast <;> linarith

/-- Lower bound of Python's round-half-to-even. -/
theorem le_py_round (q : ℚ) : q - 1 / 2 ≤ (py_round q : ℚ) := by
  unfold py_round
  have h1 : ((⌊q⌋ : ℤ) : ℚ) ≤ q := Int.floor_le q
  have h2 : q < ((⌊q⌋ : ℤ) : ℚ) + 1 := Int.lt_floor_add_one q
  split_ifs with ha hb hc <;> push_cast <;> linarith

/-- The rounded 15% share is never negative. -/
theorem num_val_nonneg (n : ℕ) : 0 ≤ num_val_of n := by
  have hq : (0 : ℚ) ≤ (0.15 : ℚ) * n := by positivity
  have hlb := le_py_round ((0.15 : ℚ) * n)
  have hgt : (-1 : ℚ) < ((num_val_of n : ℤ) : ℚ) := by
    unfold num_val_of
    linarith
  have : (-1 : ℤ) < num_val_of n := by exact_mod_cast hgt
  omega

/-- The rounded 15% share vanishes for at most three images. -/
theorem num_val_zero_of_le_three (n : ℕ) (h : n ≤ 3) : num_val_of n = 0 := by
  have hn : (n : ℚ) ≤ 3 := by exact_mod_cast h
  have hub := py_round_le ((0.15 : ℚ) * n)
  have hlt : ((num_val_of n : ℤ) : ℚ) < 1 := by
    unfold num_val_of
    nlinarith
  have h1 : num_val_of n < 1 := by exact_mod_cast hlt
  have h0 := num_val_nonneg n
  omega

/-- The rounded 15% share is at least one for at least four images. -/
theorem one_le_num_val (n : ℕ) (h : 4 ≤ n) : 1 ≤ num_val_of n := by
  have hn : (4 : ℚ) ≤ (n : ℚ) := by exact_mod_cast h
  have hq : (0.6 : ℚ) ≤ (0.15 : ℚ) * n := by nlinarith
  have hlb := le_py_round ((0.15 : ℚ) * n)
  have hgt : (0 : ℚ) < ((num_val_of n : ℤ) : ℚ) := by
    unfold num_val_of
    linarith
  have : (0 : ℤ) < num_val_of n := by exact_mod_cast hgt
  omega

/-- For at least four images, validation and test shares together fit. -/
theorem two_num_val_le (n : ℕ) (h : 4 ≤ n) : 2 * (num_val_of n).toNat ≤ n := by
  have hn : (4 : ℚ) ≤ (n : ℚ) := by exact_mod_cast h
  have hub := py_round_le ((0.15 : ℚ) * n)
  have hle : ((2 * num_val_of n : ℤ) : ℚ) ≤ ((n : ℤ) : ℚ) := by
    unfold num_val_of
    push_cast
    nlinarith
  have h2 : 2 * num_val_of n ≤ (n : ℤ) := by exact_mod_cast hle
  have h0 := num_val_nonneg n
  omega

/-- Sorting with `mergeSort` yields a `≤`-sorted list of naturals. -/
theorem sorted_mergeSort_le (l : List ℕ) :
    List.Sorted (· ≤ ·) (l.mergeSort fun a b => a ≤ b) := by
  have h := @List.sorted_mergeSort ℕ (fun a b : ℕ => a ≤ b)
    (by intro a b c hab hbc; simp only [decide_eq_true_eq] at *; omega)
    (by intro a b; simp only [Bool.or_eq_true, decide_eq_true_eq]; omega) l
  exact h.imp (by simp)

/-- The split slices of `generate_split`, with the train size folded to
`n - num_val - num_test`. -/
theorem generate_split_lists_eq (n : ℕ) (perm : List ℕ) :
    generate_split_lists n perm =
      ((perm.take (n - 2 * (num_val_of n).toNat)).mergeSort (fun a b => a ≤ b),
       ((perm.drop (n - 2 * (num_val_of n).toNat)).take
         (num_val_of n).toNat).mergeSort (fun a b => a ≤ b),
       (py_slice_last perm (num_val_of n).toNat).mergeSort fun a b => a ≤ b) := by
  have h0 := num_val_nonneg n
  have hnt : (py_round ((0.7 : ℚ) * n) +
      ((n : ℤ) - (py_round ((0.7 : ℚ) * n) + num_val_of n + num_val_of n))).toNat =
      n - 2 * (num_val_of n).toNat := by omega
  simp only [generate_split_lists, num_val_of] at hnt ⊢
  rw [hnt]

/-- Claim C8: whenever `round(0.15 * num_imgs) ≥ 1`, the split is a true
partition: the three lists are sorted, pairwise disjoint, their union is
exactly `{0, ..., num_imgs - 1}`, the validation and test lists have
`round(0.15 * num_imgs)` elements each and the training list the rest; but
whenever the rounded share is `0` (exactly the image counts `1, 2, 3`), the
slice `img_idxs[-num_test:]` with `num_test = 0` yields the whole array, so
the test list is all of `{0, ..., num_imgs - 1}` and overlaps the training
list, breaking the partition. -/
theorem generate_split_partition (n : ℕ) (perm : List ℕ)
    (hperm : perm.Perm (List.range n)) :
    (1 ≤ num_val_of n →
      List.Sorted (· ≤ ·) (generate_split_lists n perm).1 ∧
      List.Sorted (· ≤ ·) (generate_split_lists n perm).2.1 ∧
      List.Sorted (· ≤ ·) (generate_split_lists n perm).2.2 ∧
      (generate_split_lists n perm).1.Disjoint (generate_split_lists n perm).2.1 ∧
      (generate_split_lists n perm).1.Disjoint (generate_split_lists n perm).2.2 ∧
      (generate_split_lists n perm).2.1.Disjoint (generate_split_lists n perm).2.2 ∧
      (∀ i, (i ∈ (generate_split_lists n perm).1 ∨
          i ∈ (generate_split_lists n perm).2.1 ∨
          i ∈ (generate_split_lists n perm).2.2) ↔ i ∈ List.range n) ∧
      (generate_split_lists n perm).2.1.length = (num_val_of n).toNat ∧
      (generate_split_lists n perm).2.2.length = (num_val_of n).toNat ∧
      (generate_split_lists n perm).1.length = n - 2 * (num_val_of n).toNat) ∧
    (num_val_of n = 0 → 1 ≤ n →
      (generate_split_lists n perm).2.2 = List.range n ∧
      ∃ i, i ∈ (generate_split_lists n perm).1 ∧
        i ∈ (generate_split_lists n perm).2.2) ∧
    (1 ≤ n → (num_val_of n = 0 ↔ n ≤ 3)) := by
  have hlen : perm.length = n := by simpa using hperm.length_eq
  have hnodup : perm.Nodup := hperm.symm.nodup (List.nodup_range n)
  have hmem : ∀ (l : List ℕ) (a : ℕ),
      a ∈ l.mergeSort (fun x y => x ≤ y) ↔ a ∈ l :=
    fun l a => (List.mergeSort_perm l _).mem_iff
  refine ⟨?_, ?_, ?_⟩
  · intro h1
    set r := (num_val_of n).toNat with hr
    have hn4 : 4 ≤ n := by
      by_contra hc
      push_neg at hc
      have := num_val_zero_of_le_three n (by omega)
      omega
    have h2r : 2 * r ≤ n := two_num_val_le n hn4
    have hrpos : 1 ≤ r := by omega
    rw [generate_split_lists_eq]
    dsimp only
    rw [← hr]
    have hC0 : py_slice_last perm r = perm.drop (n - r) := by
      rw [py_slice_last, if_neg (by omega), hlen]
    have hAB : perm.take (n - 2 * r) ++ (perm.drop (n - 2 * r)).take r =
        perm.take (n - r) := by
      have hx : n - r = (n - 2 * r) + r := by omega
      rw [hx, List.take_add]
    have hsplit : perm.take (n - 2 * r) ++
        ((perm.drop (n - 2 * r)).take r ++ perm.drop (n - r)) = perm := by
      rw [← List.append_assoc, hAB, List.take_append_drop]
    have hN : (perm.take (n - 2 * r) ++
        ((perm.drop (n - 2 * r)).take r ++ perm.drop (n - r))).Nodup := by
      rw [hsplit]
      exact hnodup
    have hdA := List.disjoint_of_nodup_append hN
    have hdBC : ((perm.drop (n - 2 * r)).take r).Disjoint (perm.drop (n - r)) :=
      List.disjoint_of_nodup_append hN.of_append_right
    refine ⟨sorted_mergeSort_le _, sorted_mergeSort_le _, sorted_mergeSort_le _,
      ?_, ?_, ?_, ?_, ?_, ?_, ?_⟩
    · intro a ha hb
      rw [hmem] at ha hb
      exact hdA ha (by simp [hb])
    · intro a ha hb
      rw [hmem] at ha hb
      rw [hC0] at hb
      exact hdA ha (by simp [hb])
    · intro a ha hb
      rw [hmem] at ha hb
      rw [hC0] at hb
      exact hdBC ha hb
    · intro i
      rw [hmem, hmem, hmem, hC0, ← hperm.mem_iff]
      conv_rhs => rw [← hsplit]
      simp [List.mem_append]
    · rw [List.length_mergeSort, List.length_take, List.length_drop, hlen]
      omega
    · rw [List.length_mergeSort, hC0, List.length_drop, hlen]
      omega
    · rw [List.length_mergeSort, List.length_take, hlen]
      omega
  · intro h0 hn1
    have hr0 : (num_val_of n).toNat = 0 := by omega
    rw [generate_split_lists_eq]
    dsimp only
    rw [hr0]
    have htn : perm.take (n - 2 * 0) = perm := by
      rw [Nat.mul_zero, Nat.sub_zero, ← hlen, List.take_length]
    have hts : py_slice_last perm 0 = perm := by
      rw [py_slice_last, if_pos rfl]
    have hsort : perm.mergeSort (fun a b => a ≤ b) = List.range n :=
      List.eq_of_perm_of_sorted ((List.mergeSort_perm perm _).trans hperm)
        (sorted_mergeSort_le perm) (List.pairwise_le_range n)
    refine ⟨by rw [hts, hsort], 0, ?_, ?_⟩
    · rw [htn, hsort]
      simp only [List.mem_range]
      omega
    · rw [hts, hsort]
      simp only [List.mem_range]
      omega
  · intro hn1
    constructor
    · intro h0
      by_contra hc
      push_neg at hc
      have := one_le_num_val n (by omega)
      omega
    · exact num_val_zero_of_le_three n

/-- Witness for C8 at twenty images and the identity shuffle. -/
theorem generate_split_partition_witness :
    (List.range 20).Perm (List.range 20) ∧
    (1 ≤ 20 → (num_val_of 20 = 0 ↔ 20 ≤ 3)) :=
  ⟨List.Perm.refl _,
    (generate_split_partition 20 (List.range 20) (List.Perm.refl _)).2.2⟩

/-- Prefixes of the `takeWhile` run satisfy the predicate throughout. -/
theorem all_take_of_le_takeWhile (p : Line → Bool) (l : List Line) (j : ℕ)
    (h : j ≤ (l.takeWhile p).length) : (l.take j).all p = true := by
  induction l generalizing j with
  | nil => simp
  | cons a t ih =>
    cases j with
    | zero => simp
    | succ j' =>
      cases hpa : p a
      · simp [List.takeWhile_cons, hpa] at h
      · simp [List.takeWhile_cons, hpa] at h
        rw [List.take_succ_cons, List.all_cons, hpa, Bool.true_and]
        exact ih j' (by omega)

/-- A prefix on which the predicate holds is no longer than the
`takeWhile` run. -/
theorem le_takeWhile_of_all_take (p : Line → Bool) (l : List Line) (j : ℕ)
    (hj : j ≤ l.length) (h : (l.take j).all p = true) :
    j ≤ (l.takeWhile p).length := by
  induction l generalizing j with
  | nil => simpa using hj
  | cons a t ih =>
    cases j with
    | zero => simp
    | succ j' =>
      rw [List.take_succ_cons, List.all_cons, Bool.and_eq_true] at h
      obtain ⟨hpa, ht⟩ := h
      rw [List.takeWhile_cons, if_pos hpa, List.length_cons,
        Nat.succ_le_succ_iff]
      exact ih j' (by simpa using hj) ht

/-- What a successful greedy fence search guarantees: the found index holds
the fence, lies in range, and no later index in range holds the fence. -/
theorem last_fence_le_spec (tail : List Line) (k j : ℕ)
    (h : last_fence_le tail k = some j) :
    1 ≤ j ∧ j ≤ k ∧ tail.get? j = some fence ∧
      ∀ jx, j < jx → jx ≤ k → tail.get? jx ≠ some fence := by
  induction k with
  | zero => simp [last_fence_le] at h
  | succ k ih =>
    rw [last_fence_le] at h
    by_cases hc : tail.get? (k + 1) = some fence
    · rw [if_pos (by rw [beq_iff_eq]; exact hc)] at h
      have hjk : k + 1 = j := by simpa using h
      subst hjk
      exact ⟨by omega, le_refl _, hc, fun jx h1 h2 => absurd h2 (by omega)⟩
    · rw [if_neg (fun habs => hc (by rwa [beq_iff_eq] at habs))] at h
      obtain ⟨h1, h2, h3, h4⟩ := ih h
      refine ⟨h1, by omega, h3, ?_⟩
      intro jx hgt hle
      by_cases hx : jx = k + 1
      · subst hx
        exact hc
      · exact h4 jx hgt (by omega)

/-- When exactly one index in range holds the fence, the greedy search finds
it. -/
theorem last_fence_le_unique (tail : List Line) (k j : ℕ) (h1 : 1 ≤ j)
    (h2 : j ≤ k) (hj : tail.get? j = some fence)
    (huniq : ∀ jx, 1 ≤ jx → jx ≤ k → tail.get? jx = some fence → jx = j) :
    last_fence_le tail k = some j := by
  induction k with
  | zero => omega
  | succ k ih =>
    rw [last_fence_le]
    by_cases hc : tail.get? (k + 1) = some fence
    · rw [if_pos (by rw [beq_iff_eq]; exact hc)]
      rw [huniq (k + 1) (by omega) (le_refl _) hc]
    · rw [if_neg (fun habs => hc (by rwa [beq_iff_eq] at habs))]
      have hjk : j ≤ k := by
        by_cases hx : j = k + 1
        · subst hx
          exact absurd hj hc
        · omega
      exact ih hjk fun jx ha hb hcx => huniq jx ha (by omega) hcx

/-- Loading the dumped document of the concrete instance recovers it. -/
theorem listTomlLib_loads_dumps (d : List (List Char)) :
    listTomlLib.loads (listTomlLib.dumps d) = some d := by
  simp [listTomlLib, Function.comp]
  induction d with
  | nil => rfl
  | cons a t ih =>
    rw [List.map_cons, ih]
    rfl

/-- The concrete instance never dumps an empty list of lines. -/
theorem listTomlLib_dumps_ne (d : List (List Char)) :
    listTomlLib.dumps d ≠ [] := by
  simp [listTomlLib]

/-- The concrete instance never dumps a `///` line. -/
theorem listTomlLib_dumps_safe (d : List (List Char)) :
    "///".toList ∉ listTomlLib.dumps d := by
  simp [listTomlLib]

/-- Setting the dependencies of the concrete instance leaves other keys
alone. -/
theorem listTomlLib_get_other (d : List (List Char)) (ps : List Line)
    (k : Line) (h : k ≠ "dependencies".toList) :
    listTomlLib.get (listTomlLib.setDeps d ps) k = listTomlLib.get d k := by
  have hb : ¬((k == "dependencies".toList) = true) := by
    simp only [beq_iff_eq]
    exact h
  show (if k == "dependencies".toList then some ps else none) =
    (if k == "dependencies".toList then some d else none)
  rw [if_neg hb, if_neg hb]

/-- Setting the dependencies of the concrete instance stores them under the
`dependencies` key. -/
theorem listTomlLib_get_deps (d : List (List Char)) (ps : List Line) :
    listTomlLib.get (listTomlLib.setDeps d ps) "dependencies".toList =
      some (listTomlLib.depsVal ps) := by
  show (if "dependencies".toList == "dependencies".toList then some ps else none) =
    some ps
  rw [if_pos (by simp)]

/-- The fence line matches the content pattern. -/
theorem fence_is_comment : is_comment_line fence = true := by decide

/-- Inversion of a successful `parse`: the script starts with a matching
header, the regex picks a fence index, the stripped content loads, and the
body is everything after the fence. -/
theorem parse_eq_some (T : TomlLib) (script : List Line) (toml : T.Doc)
    (body : List Line) (h : parse T script = some (toml, body)) :
    ∃ hdr tail j, script = hdr :: tail ∧ header_ok hdr = true ∧
      terminator_idx tail = some j ∧
      T.loads ((tail.take j).map fun l => l.drop 2) = some toml ∧
      body = tail.drop (j + 1) := by
  cases script with
  | nil => simp [parse] at h
  | cons hdr tail =>
    refine ⟨hdr, tail, ?_⟩
    replace h : (if header_ok hdr then
        (terminator_idx tail).bind fun j =>
          (T.loads ((tail.take j).map fun l => l.drop 2)).map fun d =>
            (d, tail.drop (j + 1))
      else none) = some (toml, body) := h
    by_cases hh : header_ok hdr = true
    · rw [if_pos hh] at h
      rcases hterm : terminator_idx tail with _ | j
      · rw [hterm] at h
        simp at h
      · rw [hterm, Option.some_bind] at h
        rcases hl : T.loads ((tail.take j).map fun l => l.drop 2) with _ | d
        · rw [hl] at h
          simp at h
        · rw [hl] at h
          simp only [Option.map_some', Option.some.injEq, Prod.mk.injEq] at h
          exact ⟨j, rfl, hh, rfl, by rw [hl, h.1], h.2.symm⟩
    · rw [if_neg hh] at h
      simp at h

/-- After a successful `parse`, the body cannot open with a run of comment
lines that reaches another fence: the greedy regex would have consumed it. -/
theorem parse_body_fence_free (T : TomlLib) (script : List Line) (toml : T.Doc)
    (body : List Line) (h : parse T script = some (toml, body)) :
    ∀ i, (body.take i).all is_comment_line = true →
      body.get? i ≠ some fence := by
  obtain ⟨hdr, tail, j, rfl, hh, hterm, hl, rfl⟩ :=
    parse_eq_some T script toml body h
  rw [terminator_idx] at hterm
  obtain ⟨hj1, hjR, hjf, hjmax⟩ := last_fence_le_spec tail _ j hterm
  intro i hcom hfi
  have hgot : tail.get? (j + 1 + i) = some fence := by
    rw [← List.get?_drop]
    exact hfi
  have hlt : j + 1 + i < tail.length := by
    by_contra hx
    push_neg at hx
    rw [List.get?_eq_none.mpr hx] at hgot
    exact Option.noConfusion hgot
  have hjf' : tail[j]? = some fence := by
    rw [← List.get?_eq_getElem?]
    exact hjf
  have halltake : (tail.take (j + 1 + i)).all is_comment_line = true := by
    have h1 : tail.take (j + 1 + i) =
        (tail.take j ++ tail[j]?.toList) ++ (tail.drop (j + 1)).take i := by
      rw [← List.take_succ, ← List.take_add]
    rw [h1, List.all_append, List.all_append,
      all_take_of_le_takeWhile is_comment_line tail j hjR, hjf']
    simp [fence_is_comment, hcom]
  have hle : j + 1 + i ≤ (tail.takeWhile is_comment_line).length :=
    le_takeWhile_of_all_take is_comment_line tail (j + 1 + i) (by omega) halltake
  exact hjmax (j + 1 + i) (by omega) hle hgot

/-- Re-parsing the script written by `main` succeeds and recovers the updated
TOML document together with the body, character for character. -/
theorem parse_new_script (T : TomlLib) (toml2 : T.Doc) (body : List Line)
    (hne2 : T.dumps toml2 ≠ [])
    (hsafe2 : "///".toList ∉ T.dumps toml2)
    (hload2 : T.loads (T.dumps toml2) = some toml2)
    (hbf : ∀ i, (body.take i).all is_comment_line = true →
      body.get? i ≠ some fence) :
    parse T (new_script T toml2 body) = some (toml2, body) := by
  rcases hdump : T.dumps toml2 with _ | ⟨a, rest⟩
  · exact absurd hdump hne2
  have hnew : new_script T toml2 body =
      "# /// script".toList ::
        (((a :: rest).map fun l => '#' :: ' ' :: l) ++ fence :: body) := by
    unfold new_script
    rw [hdump]
    rfl
  set P : List Line := (a :: rest).map fun l => '#' :: ' ' :: l with hP
  set tl : List Line := P ++ fence :: body with htl
  have hPcomm : ∀ l ∈ P, is_comment_line l = true := by
    intro l hl
    obtain ⟨x, _, rfl⟩ := List.mem_map.mp hl
    rfl
  have hPnf : ∀ l ∈ P, l ≠ fence := by
    intro l hl hlf
    obtain ⟨x, hx, rfl⟩ := List.mem_map.mp hl
    have hfe : fence = ['#', ' ', '/', '/', '/'] := rfl
    rw [hfe] at hlf
    have hx3 : x = "///".toList := by
      simp only [List.cons.injEq, true_and] at hlf
      exact hlf
    have hmem : "///".toList ∈ T.dumps toml2 := by
      rw [hdump, ← hx3]
      exact hx
    exact hsafe2 hmem
  have htake : tl.take P.length = P := by
    rw [htl]
    exact List.take_left P _
  have hRge : P.length ≤ (tl.takeWhile is_comment_line).length := by
    apply le_takeWhile_of_all_take is_comment_line tl P.length
    · rw [htl, List.length_append]
      omega
    · rw [htake]
      exact List.all_eq_true.mpr hPcomm
  have hgetP : tl.get? P.length = some fence := by
    rw [htl, List.get?_append_right (le_refl _)]
    simp
  have huniq : ∀ jx, 1 ≤ jx → jx ≤ (tl.takeWhile is_comment_line).length →
      tl.get? jx = some fence → jx = P.length := by
    intro jx h1x h2x hfx
    rcases lt_trichotomy jx P.length with hlt | heq | hgt
    · exfalso
      rw [htl, List.get?_append hlt] at hfx
      exact hPnf fence (List.get?_mem hfx) rfl
    · exact heq
    · exfalso
      have hfx' : body.get? (jx - P.length - 1) = some fence := by
        rw [htl, List.get?_append_right (by omega)] at hfx
        have hstep : jx - P.length = (jx - P.length - 1) + 1 := by omega
        rw [hstep] at hfx
        simpa using hfx
      have hcommb : (body.take (jx - P.length - 1)).all is_comment_line = true := by
        have hall := all_take_of_le_takeWhile is_comment_line tl jx h2x
        rw [htl, List.take_append_eq_append_take,
          List.take_all_of_le (by omega)] at hall
        have hstep : jx - P.length = (jx - P.length - 1) + 1 := by omega
        rw [hstep, List.take_succ_cons, List.all_append, List.all_cons] at hall
        simp only [Bool.and_eq_true] at hall
        exact hall.2.2
      exact hbf _ hcommb hfx'
  have hterm2 : terminator_idx tl = some P.length := by
    rw [terminator_idx]
    exact last_fence_le_unique tl _ P.length (by rw [hP]; simp) hRge hgetP huniq
  have hcontent : (tl.take P.length).map (fun l => l.drop 2) = T.dumps toml2 := by
    rw [htake, hP, hdump, List.map_map]
    have hid : ∀ ls : List Line,
        List.map ((fun l => List.drop 2 l) ∘ fun l => '#' :: ' ' :: l) ls = ls := by
      intro ls
      induction ls with
      | nil => rfl
      | cons x t ih =>
        rw [List.map_cons, ih]
        rfl
    exact hid _
  have hdrop : tl.drop (P.length + 1) = body := by
    rw [htl, ← List.drop_drop, List.drop_left]
    rfl
  rw [hnew]
  show (if header_ok "# /// script".toList then
      (terminator_idx tl).bind fun j =>
        (T.loads ((tl.take j).map fun l => l.drop 2)).map fun d =>
          (d, tl.drop (j + 1))
    else none) = some (toml2, body)
  rw [if_pos (by decide), hterm2, Option.some_bind, hcontent, hload2,
    Option.map_some', hdrop]

/-- Claim C10: `main`/`parse` of update-setup.py satisfy the round-trip with a
frame condition: for every script that `parse` accepts and every requirements
file, `main` rewrites the script so that re-parsing it recovers the body
unchanged, character for character, and a TOML document equal to the original
on every key except `dependencies`, which now holds exactly the non-comment
lines of the requirements file.  The tomlkit interface `T` is assumed to
load its own dumps, to dump at least one line, never a `///` line, and to
update only the `dependencies` key. -/
theorem update_setup_roundtrip (T : TomlLib)
    (hload : ∀ d, T.loads (T.dumps d) = some d)
    (hne : ∀ d, T.dumps d ≠ [])
    (hsafe : ∀ d, "///".toList ∉ T.dumps d)
    (hget : ∀ d ps k, k ≠ "dependencies".toList →
      T.get (T.setDeps d ps) k = T.get d k)
    (hdeps : ∀ d ps,
      T.get (T.setDeps d ps) "dependencies".toList = some (T.depsVal ps))
    (reqs script : List Line) (toml : T.Doc) (body : List Line)
    (hparse : parse T script = some (toml, body)) :
    py_main T reqs script = some (new_script T
      (T.setDeps toml (reqs.filter fun l => !(is_req_comment l))) body) ∧
    parse T (new_script T
        (T.setDeps toml (reqs.filter fun l => !(is_req_comment l))) body) =
      some (T.setDeps toml (reqs.filter fun l => !(is_req_comment l)), body) ∧
    (∀ k, k ≠ "dependencies".toList →
      T.get (T.setDeps toml (reqs.filter fun l => !(is_req_comment l))) k =
        T.get toml k) ∧
    T.get (T.setDeps toml (reqs.filter fun l => !(is_req_comment l)))
        "dependencies".toList =
      some (T.depsVal (reqs.filter fun l => !(is_req_comment l))) := by
  refine ⟨?_, ?_, fun k hk => hget toml _ k hk, hdeps toml _⟩
  · unfold py_main
    rw [hparse]
    rfl
  · exact parse_new_script T _ body (hne _) (hsafe _) (hload _)
      (parse_body_fence_free T script toml body hparse)

/-- Witness for C10 at a concrete three-line script with an empty body and a
requirements file holding one package line and one comment line. -/
theorem update_setup_roundtrip_witness :
    parse listTomlLib
        ["# /// script".toList, "# deps:".toList, "# ///".toList] =
      some (([] : List (List Char)), ([] : List Line)) ∧
    listTomlLib.get
        (listTomlLib.setDeps ([] : List (List Char))
          ((["numpy".toList, "# pin".toList] : List Line).filter
            fun l => !(is_req_comment l)))
        "dependencies".toList =
      some (listTomlLib.depsVal
        ((["numpy".toList, "# pin".toList] : List Line).filter
          fun l => !(is_req_comment l))) :=
  ⟨rfl,
    (update_setup_roundtrip listTomlLib listTomlLib_loads_dumps
      listTomlLib_dumps_ne listTomlLib_dumps_safe listTomlLib_get_other
      listTomlLib_get_deps ["numpy".toList, "# pin".toList]
      ["# /// script".toList, "# deps:".toList, "# ///".toList]
      [] [] rfl).2.2.2⟩

end OceanData
